import Mathlib

/-!
Verification of the dependency-installation orchestrator in
`src/plugins/market/src/node/installer.ts`.

The development shallowly embeds the installer: JS objects (`Dict`) become
association lists that keep insertion order, JS strings become Lean `String`
(a structure over `List Char`, matching JS code-unit semantics for the ASCII
data handled here), and the asynchronous effects of `install` (manifest
writes, process spawns, cache invalidation, reload signals) become an explicit
trace record computed by a pure function.

The semantic-version primitives (`compare`, `valid`, `satisfies` from the
`semver` npm package) are external to the repository; the spec declares them
out of scope and assumed correct.  `compare` and `valid` are modelled
concretely below, faithful to the published semver 2.0.0 rules that the
library implements; `satisfies` (range satisfaction) is kept as an abstract
parameter of the model.
-/

namespace Market

/-! ### Ordering combinators

`semver.compare` is modelled by structural comparators built from the
combinators below.  `CmpLaws` packages the properties needed to reason about
sorting: comparison is antisymmetric (`swap_eq`), reflects equality
(`eq_iff`) and is transitive on non-`lt` results (`ge_trans`). -/

/-- Comparator on naturals, as used for semver numeric identifiers. -/
def cmpNat (m n : Nat) : Ordering :=
  if m < n then .lt else if m = n then .eq else .gt

/-- Comparator on characters by code point (JS code-unit comparison on the
ASCII identifiers that appear in semver strings). -/
def cmpChar (a b : Char) : Ordering :=
  cmpNat a.toNat b.toNat

/-- Lexicographic comparator on lists: first difference decides, a proper
prefix is smaller. -/
def cmpList (cmp : α → α → Ordering) : List α → List α → Ordering
  | [], [] => .eq
  | [], _ :: _ => .lt
  | _ :: _, [] => .gt
  | a :: as, b :: bs =>
    match cmp a b with
    | .eq => cmpList cmp as bs
    | o => o

/-- Lexicographic comparator on pairs. -/
def cmpProd (f : α → α → Ordering) (g : β → β → Ordering) (x y : α × β) : Ordering :=
  match f x.1 y.1 with
  | .eq => g x.2 y.2
  | o => o

theorem cmpList_cons_of_eq {cmp : α → α → Ordering} {a b : α} (as bs : List α)
    (h : cmp a b = .eq) : cmpList cmp (a :: as) (b :: bs) = cmpList cmp as bs := by
  simp only [cmpList, h]

theorem cmpList_cons_of_lt {cmp : α → α → Ordering} {a b : α} (as bs : List α)
    (h : cmp a b = .lt) : cmpList cmp (a :: as) (b :: bs) = .lt := by
  simp only [cmpList, h]

theorem cmpList_cons_of_gt {cmp : α → α → Ordering} {a b : α} (as bs : List α)
    (h : cmp a b = .gt) : cmpList cmp (a :: as) (b :: bs) = .gt := by
  simp only [cmpList, h]

theorem cmpProd_of_eq {f : α → α → Ordering} {g : β → β → Ordering} {x y : α × β}
    (h : f x.1 y.1 = .eq) : cmpProd f g x y = g x.2 y.2 := by
  simp only [cmpProd, h]

theorem cmpProd_of_lt {f : α → α → Ordering} {g : β → β → Ordering} {x y : α × β}
    (h : f x.1 y.1 = .lt) : cmpProd f g x y = .lt := by
  simp only [cmpProd, h]

theorem cmpProd_of_gt {f : α → α → Ordering} {g : β → β → Ordering} {x y : α × β}
    (h : f x.1 y.1 = .gt) : cmpProd f g x y = .gt := by
  simp only [cmpProd, h]

/-- The laws a comparator must satisfy for sorting arguments to go through. -/
structure CmpLaws (cmp : α → α → Ordering) : Prop where
  eq_iff : ∀ a b, cmp a b = .eq ↔ a = b
  swap_eq : ∀ a b, (cmp a b).swap = cmp b a
  ge_trans : ∀ a b c, cmp a b ≠ .lt → cmp b c ≠ .lt → cmp a c ≠ .lt

theorem CmpLaws.refl {cmp : α → α → Ordering} (h : CmpLaws cmp) (a : α) :
    cmp a a = .eq := (h.eq_iff a a).mpr rfl

theorem CmpLaws.lt_of_gt {cmp : α → α → Ordering} (h : CmpLaws cmp) {a b : α}
    (hab : cmp a b = .gt) : cmp b a = .lt := by
  have hs := h.swap_eq a b
  rw [hab] at hs
  exact hs.symm

theorem CmpLaws.gt_of_lt {cmp : α → α → Ordering} (h : CmpLaws cmp) {a b : α}
    (hab : cmp a b = .lt) : cmp b a = .gt := by
  have hs := h.swap_eq a b
  rw [hab] at hs
  exact hs.symm

theorem CmpLaws.gt_trans {cmp : α → α → Ordering} (h : CmpLaws cmp) {a b c : α}
    (hab : cmp a b = .gt) (hbc : cmp b c = .gt) : cmp a c = .gt := by
  have hac : cmp a c ≠ .lt := by
    refine h.ge_trans a b c ?_ ?_ <;> simp [hab, hbc]
  cases hcases : cmp a c with
  | lt => exact absurd hcases hac
  | gt => rfl
  | eq =>
    exfalso
    have hac' : a = c := (h.eq_iff a c).mp hcases
    subst hac'
    have hlt := h.lt_of_gt hab
    rw [hlt] at hbc
    cases hbc

theorem cmpNat_laws : CmpLaws cmpNat := by
  refine ⟨?_, ?_, ?_⟩
  · intro a b
    unfold cmpNat
    rcases Nat.lt_trichotomy a b with h | h | h
    · rw [if_pos h]
      constructor
      · intro hh; cases hh
      · intro hh; omega
    · subst h
      rw [if_neg (Nat.lt_irrefl a), if_pos rfl]
      simp
    · rw [if_neg (by omega), if_neg (by omega)]
      constructor
      · intro hh; cases hh
      · intro hh; omega
  · intro a b
    unfold cmpNat
    rcases Nat.lt_trichotomy a b with h | h | h
    · rw [if_pos h, if_neg (by omega : ¬ b < a), if_neg (by omega : ¬ b = a)]; rfl
    · subst h
      simp [Ordering.swap]
    · rw [if_neg (by omega : ¬ a < b), if_neg (by omega : ¬ a = b), if_pos h]; rfl
  · intro a b c hab hbc
    unfold cmpNat at *
    have h1 : ¬ a < b := by
      intro h; rw [if_pos h] at hab; exact hab rfl
    have h2 : ¬ b < c := by
      intro h; rw [if_pos h] at hbc; exact hbc rfl
    rw [if_neg (by omega : ¬ a < c)]
    split <;> simp

theorem cmpChar_laws : CmpLaws cmpChar := by
  refine ⟨?_, ?_, ?_⟩
  · intro a b
    unfold cmpChar
    rw [cmpNat_laws.eq_iff]
    constructor
    · intro h
      exact Char.ext (UInt32.ext h)
    · intro h; rw [h]
  · intro a b
    exact cmpNat_laws.swap_eq _ _
  · intro a b c
    exact cmpNat_laws.ge_trans _ _ _

theorem cmpList_laws {cmp : α → α → Ordering} (h : CmpLaws cmp) :
    CmpLaws (cmpList cmp) := by
  refine ⟨?_, ?_, ?_⟩
  · intro a
    induction a with
    | nil => intro b; cases b <;> simp [cmpList]
    | cons x xs ih =>
      intro b
      cases b with
      | nil => simp [cmpList]
      | cons y ys =>
        cases hxy : cmp x y with
        | eq =>
          have hx : x = y := (h.eq_iff x y).mp hxy
          subst hx
          rw [cmpList_cons_of_eq _ _ hxy, ih ys]
          constructor
          · intro hh; rw [hh]
          · intro hh; injection hh
        | lt =>
          rw [cmpList_cons_of_lt _ _ hxy]
          constructor
          · intro hh; cases hh
          · intro hh
            injection hh with h1 h2
            subst h1
            rw [h.refl] at hxy
            cases hxy
        | gt =>
          rw [cmpList_cons_of_gt _ _ hxy]
          constructor
          · intro hh; cases hh
          · intro hh
            injection hh with h1 h2
            subst h1
            rw [h.refl] at hxy
            cases hxy
  · intro a
    induction a with
    | nil => intro b; cases b <;> simp [cmpList, Ordering.swap]
    | cons x xs ih =>
      intro b
      cases b with
      | nil => simp [cmpList, Ordering.swap]
      | cons y ys =>
        cases hxy : cmp x y with
        | eq =>
          have hyx : cmp y x = .eq := by
            have hs := h.swap_eq x y; rw [hxy] at hs; exact hs.symm
          rw [cmpList_cons_of_eq _ _ hxy, cmpList_cons_of_eq _ _ hyx]
          exact ih ys
        | lt =>
          rw [cmpList_cons_of_lt _ _ hxy, cmpList_cons_of_gt _ _ (h.gt_of_lt hxy)]
          rfl
        | gt =>
          rw [cmpList_cons_of_gt _ _ hxy, cmpList_cons_of_lt _ _ (h.lt_of_gt hxy)]
          rfl
  · intro a
    induction a with
    | nil =>
      intro b c hab hbc
      cases b with
      | nil => exact hbc
      | cons y ys => simp [cmpList] at hab
    | cons x xs ih =>
      intro b c hab hbc
      cases b with
      | nil =>
        cases c with
        | nil => simp [cmpList]
        | cons z zs => simp [cmpList] at hbc
      | cons y ys =>
        cases c with
        | nil => simp [cmpList]
        | cons z zs =>
          cases hxy : cmp x y with
          | lt => rw [cmpList_cons_of_lt _ _ hxy] at hab; exact absurd rfl hab
          | eq =>
            have hx : x = y := (h.eq_iff x y).mp hxy
            subst hx
            rw [cmpList_cons_of_eq _ _ hxy] at hab
            cases hyz : cmp x z with
            | lt =>
              rw [cmpList_cons_of_lt _ _ hyz] at hbc
              exact absurd rfl hbc
            | eq =>
              rw [cmpList_cons_of_eq _ _ hyz] at hbc
              rw [cmpList_cons_of_eq _ _ hyz]
              exact ih ys zs hab hbc
            | gt =>
              rw [cmpList_cons_of_gt _ _ hyz]
              simp
          | gt =>
            cases hyz : cmp y z with
            | lt => rw [cmpList_cons_of_lt _ _ hyz] at hbc; exact absurd rfl hbc
            | eq =>
              have hy : y = z := (h.eq_iff y z).mp hyz
              subst hy
              rw [cmpList_cons_of_gt _ _ hxy]
              simp
            | gt =>
              rw [cmpList_cons_of_gt _ _ (h.gt_trans hxy hyz)]
              simp

theorem cmpProd_laws {f : α → α → Ordering} {g : β → β → Ordering}
    (hf : CmpLaws f) (hg : CmpLaws g) : CmpLaws (cmpProd f g) := by
  refine ⟨?_, ?_, ?_⟩
  · intro a b
    cases h1 : f a.1 b.1 with
    | eq =>
      have hfst : a.1 = b.1 := (hf.eq_iff a.1 b.1).mp h1
      rw [cmpProd_of_eq h1, hg.eq_iff]
      constructor
      · intro h2
        exact Prod.ext hfst h2
      · intro h2; rw [h2]
    | lt =>
      rw [cmpProd_of_lt h1]
      constructor
      · intro hh; cases hh
      · intro hh
        rw [hh, hf.refl] at h1
        cases h1
    | gt =>
      rw [cmpProd_of_gt h1]
      constructor
      · intro hh; cases hh
      · intro hh
        rw [hh, hf.refl] at h1
        cases h1
  · intro a b
    cases h1 : f a.1 b.1 with
    | eq =>
      have h2 : f b.1 a.1 = .eq := by
        have hs := hf.swap_eq a.1 b.1; rw [h1] at hs; exact hs.symm
      rw [cmpProd_of_eq h1, cmpProd_of_eq h2]
      exact hg.swap_eq _ _
    | lt =>
      rw [cmpProd_of_lt h1, cmpProd_of_gt (hf.gt_of_lt h1)]
      rfl
    | gt =>
      rw [cmpProd_of_gt h1, cmpProd_of_lt (hf.lt_of_gt h1)]
      rfl
  · intro a b c hab hbc
    cases h1 : f a.1 b.1 with
    | lt => rw [cmpProd_of_lt h1] at hab; exact absurd rfl hab
    | eq =>
      rw [cmpProd_of_eq h1] at hab
      have hx : a.1 = b.1 := (hf.eq_iff _ _).mp h1
      cases h2 : f b.1 c.1 with
      | lt => rw [cmpProd_of_lt h2] at hbc; exact absurd rfl hbc
      | eq =>
        rw [cmpProd_of_eq h2] at hbc
        rw [cmpProd_of_eq (by rw [hx]; exact h2)]
        exact hg.ge_trans _ _ _ hab hbc
      | gt =>
        rw [cmpProd_of_gt (by rw [hx]; exact h2)]
        simp
    | gt =>
      cases h2 : f b.1 c.1 with
      | lt => rw [cmpProd_of_lt h2] at hbc; exact absurd rfl hbc
      | eq =>
        have hy : b.1 = c.1 := (hf.eq_iff _ _).mp h2
        rw [cmpProd_of_gt (by rw [← hy]; exact h1)]
        simp
      | gt =>
        rw [cmpProd_of_gt (hf.gt_trans h1 h2)]
        simp

/-! ### Semantic versions

`semver` parses a version string into major/minor/patch numbers plus an
optional dot-separated pre-release identifier list (numeric identifiers are
numbers without leading zeros, so the parsed form determines the string up to
ignored build metadata).  The model works with parsed versions directly. -/

/-- A pre-release identifier: numeric identifiers compare numerically and are
lower than alphanumeric ones, which compare by code point. -/
abbrev PreId := Nat ⊕ String

/-- A parsed semantic version.  Build metadata is ignored by `semver.compare`
and by everything in the installer, so it is not modelled. -/
structure Version where
  major : Nat
  minor : Nat
  patch : Nat
  prerelease : List PreId := []
deriving DecidableEq, Repr

/-- Comparator on pre-release identifiers, per semver 2.0.0 rule 11: numeric
identifiers always have lower precedence than alphanumeric ones. -/
def cmpPre : PreId → PreId → Ordering
  | .inl m, .inl n => cmpNat m n
  | .inl _, .inr _ => .lt
  | .inr _, .inl _ => .gt
  | .inr s, .inr t => cmpList cmpChar s.data t.data

/-- Comparator on pre-release lists: a version without pre-release has higher
precedence than one with; two pre-release lists compare lexicographically
with a proper prefix smaller. -/
def cmpPrel (a b : List PreId) : Ordering :=
  match a, b with
  | [], [] => .eq
  | [], _ :: _ => .gt
  | _ :: _, [] => .lt
  | a, b => cmpList cmpPre a b

/-- The tuple of version components ordered the way `semver.compare`
compares them. -/
def Version.key (v : Version) : Nat × Nat × Nat × List PreId :=
  (v.major, v.minor, v.patch, v.prerelease)

/-- Model of `semver.compare`: major, minor, patch numerically, then the
pre-release rule. -/
def cmpVersion (a b : Version) : Ordering :=
  cmpProd cmpNat (cmpProd cmpNat (cmpProd cmpNat cmpPrel)) a.key b.key

theorem cmpPre_laws : CmpLaws cmpPre := by
  refine ⟨?_, ?_, ?_⟩
  · intro a b
    cases a <;> cases b <;> simp only [cmpPre]
    · rw [cmpNat_laws.eq_iff]
      constructor
      · intro hh; rw [hh]
      · intro hh; injection hh
    · constructor
      · intro hh; cases hh
      · intro hh; cases hh
    · constructor
      · intro hh; cases hh
      · intro hh; cases hh
    · rw [(cmpList_laws cmpChar_laws).eq_iff]
      constructor
      · intro hh
        exact congrArg Sum.inr (String.ext hh)
      · intro hh; injection hh with hh; rw [hh]
  · intro a b
    cases a <;> cases b <;> simp only [cmpPre]
    · exact cmpNat_laws.swap_eq _ _
    · rfl
    · rfl
    · exact (cmpList_laws cmpChar_laws).swap_eq _ _
  · intro a b c hab hbc
    cases a <;> cases b <;> cases c <;> simp only [cmpPre] at hab hbc ⊢ <;>
      first
      | exact cmpNat_laws.ge_trans _ _ _ hab hbc
      | exact (cmpList_laws cmpChar_laws).ge_trans _ _ _ hab hbc
      | decide
      | exact absurd rfl hab
      | exact absurd rfl hbc

theorem cmpPrel_cons_cons (a b : PreId) (as bs : List PreId) :
    cmpPrel (a :: as) (b :: bs) = cmpList cmpPre (a :: as) (b :: bs) := rfl

theorem cmpPrel_laws : CmpLaws cmpPrel := by
  refine ⟨?_, ?_, ?_⟩
  · intro a b
    cases a with
    | nil => cases b <;> simp [cmpPrel]
    | cons x xs =>
      cases b with
      | nil => simp [cmpPrel]
      | cons y ys =>
        rw [cmpPrel_cons_cons, (cmpList_laws cmpPre_laws).eq_iff]
  · intro a b
    cases a with
    | nil => cases b <;> rfl
    | cons x xs =>
      cases b with
      | nil => rfl
      | cons y ys =>
        rw [cmpPrel_cons_cons, cmpPrel_cons_cons]
        exact (cmpList_laws cmpPre_laws).swap_eq _ _
  · intro a b c hab hbc
    cases a with
    | nil => cases c <;> simp [cmpPrel]
    | cons x xs =>
      cases b with
      | nil =>
        rw [show cmpPrel (x :: xs) [] = .lt from rfl] at hab
        exact absurd rfl hab
      | cons y ys =>
        cases c with
        | nil =>
          rw [show cmpPrel (y :: ys) [] = .lt from rfl] at hbc
          exact absurd rfl hbc
        | cons z zs =>
          rw [cmpPrel_cons_cons] at hab hbc ⊢
          exact (cmpList_laws cmpPre_laws).ge_trans _ _ _ hab hbc

theorem cmpVersion_laws : CmpLaws cmpVersion := by
  have h := cmpProd_laws cmpNat_laws
    (cmpProd_laws cmpNat_laws (cmpProd_laws cmpNat_laws cmpPrel_laws))
  refine ⟨?_, ?_, ?_⟩
  · intro a b
    unfold cmpVersion
    rw [h.eq_iff]
    constructor
    · intro hh
      cases a with
      | mk ma mia pa pra =>
        cases b with
        | mk mb mib pb prb =>
          simp only [Version.key, Prod.mk.injEq] at hh
          obtain ⟨h1, h2, h3, h4⟩ := hh
          subst h1; subst h2; subst h3; subst h4
          rfl
    · intro hh; rw [hh]
  · intro a b; exact h.swap_eq _ _
  · intro a b c; exact h.ge_trans _ _ _

/-! ### Semver string handling

`Installer` manipulates version and range strings: `_getDeps` strips a single
leading `^`/`~` (`request.replace(/^[~^]/, '')`) and calls `valid(request)`
(`semver.valid`, which recognises a single concrete version, optionally
prefixed by `v`); `exec` compares the agent's version string with `'2'` using
JS string `>=` (code-unit lexicographic order). -/

/-- JS `str.split(sep)` for a one-character separator, on the character
list of the string.  The result is never empty; the final element is the
(possibly empty) trailing fragment. -/
def splitOnC (sep : Char) : List Char → List (List Char)
  | [] => [[]]
  | c :: cs =>
    match splitOnC sep cs with
    | [] => [[]]
    | l :: ls => if c = sep then [] :: l :: ls else (c :: l) :: ls

/-- Split at the first occurrence of `sep`, returning the part before it and,
when `sep` occurs, the part after it. -/
def splitFirstC (sep : Char) : List Char → List Char × Option (List Char)
  | [] => ([], none)
  | c :: cs =>
    if c = sep then ([], some cs)
    else
      let (a, b) := splitFirstC sep cs
      (c :: a, b)

/-- ASCII digit test. -/
def isDigitC (c : Char) : Bool := '0' ≤ c && c ≤ '9'

/-- Semver numeric identifier: nonempty digits without a leading zero. -/
def numericIdent (s : List Char) : Bool :=
  !s.isEmpty && s.all isDigitC && (s.head? != some '0' || s.length == 1)

/-- Character allowed in semver pre-release/build identifiers. -/
def identC (c : Char) : Bool :=
  isDigitC c || ('a' ≤ c && c ≤ 'z') || ('A' ≤ c && c ≤ 'Z') || c == '-'

/-- Semver pre-release identifier: alphanumerics and hyphens, nonempty, and
if fully numeric then without leading zeros. -/
def preIdentOk (s : List Char) : Bool :=
  !s.isEmpty && s.all identC && (!s.all isDigitC || numericIdent s)

/-- Semver build identifier: alphanumerics and hyphens, nonempty. -/
def buildIdentOk (s : List Char) : Bool :=
  !s.isEmpty && s.all identC

/-- Strip the optional leading `v` the semver parser accepts. -/
def stripLeadV (s : List Char) : List Char :=
  match s with
  | 'v' :: rest => rest
  | _ => s

/-- Model of `semver.valid` on the character list: `v?X.Y.Z(-pre)?(+build)?`
with numeric `X`, `Y`, `Z`.  This is version validity, not range validity. -/
def semverValidCore (s : List Char) : Bool :=
  let s1 := stripLeadV s
  let (beforePlus, buildS) := splitFirstC '+' s1
  let (main, preS) := splitFirstC '-' beforePlus
  let parts := splitOnC '.' main
  parts.length == 3 && parts.all numericIdent &&
    (match preS with
     | none => true
     | some p => (splitOnC '.' p).all preIdentOk) &&
    (match buildS with
     | none => true
     | some b => (splitOnC '.' b).all buildIdentOk)

/-- Model of `semver.valid` on strings (`valid` from the `semver` package,
an external library the spec assumes correct). -/
def semverValid (s : String) : Bool := semverValidCore s.data

/-- Numeric value of a digit list. -/
def digitsToNat (s : List Char) : Nat :=
  s.foldl (fun acc c => acc * 10 + (c.toNat - '0'.toNat)) 0

/-- The major component of a valid semver version string. -/
def semverMajor (s : String) : Option Nat :=
  if semverValidCore s.data then
    let s1 := stripLeadV s.data
    let (beforePlus, _) := splitFirstC '+' s1
    let (main, _) := splitFirstC '-' beforePlus
    match splitOnC '.' main with
    | m :: _ => some (digitsToNat m)
    | [] => none
  else none

/-- JS string `>=` (code-unit lexicographic order), as used by
`this.agent.version >= '2'` in `Installer.exec`. -/
def jsStrGe (a b : String) : Bool :=
  match cmpList cmpChar a.data b.data with
  | .lt => false
  | _ => true

/-- JS string `<=`-style comparator used to sort manifest keys
(`localeCompare`, modelled as code-unit order, which coincides with it on the
ASCII package names involved). -/
def jsStrLeP (a b : String) : Prop :=
  cmpList cmpChar a.data b.data ≠ .gt

instance : DecidableRel jsStrLeP := fun a b => by
  unfold jsStrLeP; infer_instance

/-- Model of `request.replace(/^[~^]/, '')`: strip one leading `^` or `~`. -/
def stripCaretTilde (s : String) : String :=
  match s.data with
  | c :: rest => if c = '^' || c = '~' then String.mk rest else s
  | [] => s

/-! ### Semver range validity (reference semantics)

Modelled from the spec: the spec describes `invalid` as "request range fails
semver-range validation" (§3 and §4.3), naming the range-validity primitive
of the external semver library (`validRange`) which the repository does not
implement (spec §1 declares semver primitives out of scope, assumed
correct).  The definitions below follow the published semver range grammar:
`||`-separated alternatives, each a whitespace-separated list of comparators
with operators `>=`, `<=`, `>`, `<`, `=`, `^`, `~`, wildcard identifiers
`x`/`X`/`*`, hyphen ranges, and the empty range meaning "any version". -/

/-- Split a character list on the two-character separator `||`. -/
def splitOrs : List Char → List (List Char)
  | [] => [[]]
  | '|' :: '|' :: rest => [] :: splitOrs rest
  | c :: rest =>
    match splitOrs rest with
    | [] => [[c]]
    | l :: ls => (c :: l) :: ls

/-- Whitespace-separated tokens of a range alternative. -/
def rangeTokens (s : List Char) : List (List Char) :=
  (splitOnC ' ' s).filter (fun t => !t.isEmpty)

/-- A version part in a range: numeric or an `x`/`X`/`*` wildcard. -/
def xIdent (s : List Char) : Bool :=
  s == ['x'] || s == ['X'] || s == ['*'] || numericIdent s

/-- A loose version as allowed inside range comparators: one to three
dot-separated parts (wildcards allowed), optional pre-release and build. -/
def loosePartOk (s : List Char) : Bool :=
  let s1 := stripLeadV s
  let (beforePlus, buildS) := splitFirstC '+' s1
  let (main, preS) := splitFirstC '-' beforePlus
  let parts := splitOnC '.' main
  decide (1 ≤ parts.length ∧ parts.length ≤ 3) && parts.all xIdent &&
    (match preS with
     | none => true
     | some p => (splitOnC '.' p).all preIdentOk) &&
    (match buildS with
     | none => true
     | some b => (splitOnC '.' b).all buildIdentOk)

/-- A single range comparator: an optional operator followed by a loose
version. -/
def comparatorOk (s : List Char) : Bool :=
  match s with
  | '>' :: '=' :: r => loosePartOk r
  | '<' :: '=' :: r => loosePartOk r
  | '>' :: r => loosePartOk r
  | '<' :: r => loosePartOk r
  | '=' :: r => loosePartOk r
  | '^' :: r => loosePartOk r
  | '~' :: r => loosePartOk r
  | r => loosePartOk r

/-- One `||`-alternative of a range: a hyphen range, an empty alternative
(matches anything), or comparators. -/
def rangeAltOk (s : List Char) : Bool :=
  match rangeTokens s with
  | [a, ['-'], b] => loosePartOk a && loosePartOk b
  | [] => true
  | toks => toks.all comparatorOk

/-- Reference model of `semver.validRange`. -/
def semverValidRange (s : String) : Bool :=
  (splitOrs s.data).all rangeAltOk

/-! ### Dictionaries

JS objects (`Dict` in the source) are modelled as association lists in key
insertion order; `for (const k in o)` iterates that order, and object keys
are unique. -/

/-- JS property read `o[k]`. -/
def lookupKey [DecidableEq κ] (k : κ) : List (κ × β) → Option β
  | [] => none
  | p :: rest => if p.1 = k then some p.2 else lookupKey k rest

theorem lookupKey_nil [DecidableEq κ] (k : κ) :
    lookupKey k ([] : List (κ × β)) = none := rfl

theorem lookupKey_cons [DecidableEq κ] (k : κ) (p : κ × β) (rest : List (κ × β)) :
    lookupKey k (p :: rest) = if p.1 = k then some p.2 else lookupKey k rest := rfl

/-- JS property write `o[k] = v`: updates the existing binding in place, or
appends a new one. -/
def setEntry [DecidableEq κ] (l : List (κ × β)) (k : κ) (v : β) : List (κ × β) :=
  if (lookupKey k l).isSome then
    l.map (fun p => if p.1 = k then (k, v) else p)
  else
    l ++ [(k, v)]

/-- JS `delete o[k]`. -/
def removeEntry [DecidableEq κ] (l : List (κ × β)) (k : κ) : List (κ × β) :=
  l.filter (fun p => p.1 ≠ k)

/-- JS `Object.fromEntries`: builds an object by inserting each pair in
order (later values win, first occurrence fixes the key position). -/
def fromEntries [DecidableEq κ] (l : List (κ × β)) : List (κ × β) :=
  l.foldl (fun acc p => setEntry acc p.1 p.2) []

theorem lookupKey_eq_none [DecidableEq κ] {k : κ} {l : List (κ × β)}
    (h : k ∉ l.map Prod.fst) : lookupKey k l = none := by
  induction l with
  | nil => rfl
  | cons p rest ih =>
    simp only [List.map_cons, List.mem_cons] at h
    push_neg at h
    unfold lookupKey
    rw [if_neg (Ne.symm h.1), ih h.2]

theorem setEntry_append_of_not_mem [DecidableEq κ] {k : κ} {l : List (κ × β)} (v : β)
    (h : k ∉ l.map Prod.fst) : setEntry l k v = l ++ [(k, v)] := by
  unfold setEntry
  rw [lookupKey_eq_none h]
  rfl

theorem foldl_setEntry_eq_append [DecidableEq κ] :
    ∀ (l acc : List (κ × β)), ((acc ++ l).map Prod.fst).Nodup →
      l.foldl (fun acc p => setEntry acc p.1 p.2) acc = acc ++ l
  | [], acc, _ => by simp
  | p :: rest, acc, h => by
    have hp : p.1 ∉ acc.map Prod.fst := by
      rw [List.map_append, List.nodup_append] at h
      intro hmem
      exact h.2.2 hmem (by simp)
    rw [List.foldl_cons, setEntry_append_of_not_mem _ hp,
        foldl_setEntry_eq_append rest (acc ++ [p]) (by simpa using h)]
    simp

theorem fromEntries_eq_self [DecidableEq κ] {l : List (κ × β)}
    (h : (l.map Prod.fst).Nodup) : fromEntries l = l := by
  unfold fromEntries
  simpa using foldl_setEntry_eq_append l [] (by simpa using h)

/-! ### The version cache (`getVersions`)

Direct translation of `getVersions` (installer.ts lines 62 through 66) with
versions already parsed: map each remote record to a `(version, picked
metadata)` pair, sort descending by `semver.compare`, build the object. -/

/-- The metadata fields `pick`ed from a remote version record
(`DependencyMetaKey` is `peerDependencies`, `peerDependenciesMeta`,
`deprecated`). -/
structure DependencyMeta where
  peerDependencies : List (String × String) := []
  peerDependenciesMeta : List (String × Bool) := []
  deprecated : Option String := none
deriving DecidableEq, Repr

/-- A remote version record as consumed by `getVersions`; the registry
document carries more fields, but only these are read. -/
structure RemotePackage where
  version : Version
  peerDependencies : List (String × String) := []
  peerDependenciesMeta : List (String × Bool) := []
  deprecated : Option String := none
deriving DecidableEq, Repr

/-- `pick(item, ['peerDependencies', 'peerDependenciesMeta', 'deprecated'])`. -/
def pickMeta (r : RemotePackage) : DependencyMeta :=
  { peerDependencies := r.peerDependencies
    peerDependenciesMeta := r.peerDependenciesMeta
    deprecated := r.deprecated }

/-- The descending comparator relation used by
`.sort(([a], [b]) => compare(b, a))`: `x` comes before `y` when `x`'s
version is not smaller. -/
def vDesc (x y : Version × DependencyMeta) : Prop :=
  cmpVersion x.1 y.1 ≠ .lt

instance : DecidableRel vDesc := fun x y => by
  unfold vDesc; infer_instance

instance : IsTotal (Version × DependencyMeta) vDesc := by
  constructor
  intro x y
  by_cases h : cmpVersion x.1 y.1 = .lt
  · right
    unfold vDesc
    rw [cmpVersion_laws.gt_of_lt h]
    simp
  · left; exact h

instance : IsTrans (Version × DependencyMeta) vDesc := by
  constructor
  intro x y z hxy hyz
  exact cmpVersion_laws.ge_trans _ _ _ hxy hyz

/-- `getVersions` (installer.ts lines 62 through 66). -/
def getVersions (versions : List RemotePackage) : List (Version × DependencyMeta) :=
  fromEntries
    (List.insertionSort vDesc (versions.map (fun item => (item.version, pickMeta item))))

/-! ### The installer -/

/-- Dependency record (installer.ts `Dependency` interface); absent JS
fields are `none`. -/
structure Dependency where
  request : String
  resolved : Option Version := none
  workspace : Option Bool := none
  invalid : Option Bool := none
  latest : Option Version := none
deriving DecidableEq, Repr

/-- JS truthiness of an optional boolean field. -/
def truthy (o : Option Bool) : Bool := o.getD false

/-- What `loadManifest(name)` yields when it does not throw: the installed
package's declared version and its `$workspace` marker (true when the
resolved path is outside `node_modules`). -/
structure LocalPkg where
  version : Version
  workspace : Bool
deriving DecidableEq, Repr

/-- The `which-pm-runs` result (`this.agent`), possibly absent. -/
structure Agent where
  name : String
  version : String
deriving DecidableEq, Repr

/-- Behavior of the spawned package-manager process: it either exits with a
code, or fails to start (the `error` event fires). -/
inductive ProcOutcome where
  | exit (code : Int)
  | startError
deriving DecidableEq, Repr

/-- The value `exec`'s promise resolves with (installer.ts lines 192 through
197): the process's exit code, or `-1` when it failed to start.  The
executor only ever resolves — `exec` never throws — which the model renders
as totality of this function. -/
def execResult : ProcOutcome → Int
  | .exit code => code
  | .startError => -1

/-- The spawn performed by `exec` (installer.ts lines 188 through 196):
resolved executable name, final argument list, and whether JSON-line mode
was selected. -/
structure SpawnCall where
  name : String
  args : List String
  useJson : Bool
deriving DecidableEq, Repr

namespace Installer

/-- Environment of one `install` call: the external collaborators consulted.
`satisfies` stands for `semver.satisfies` with `includePrerelease: true`
(external library, assumed correct); `localBefore` and `localAfter` are
`loadManifest` before the manifest override and after the refresh (`none`
models a throw: package not installed); `registry` is what `getPackage`
resolves to per name after the refresh; `resolveInCache` combines
`require.resolve` with the `require.cache` membership test (`none` models a
throwing resolve); `manifest` is the current manifest's dependency map. -/
structure Env where
  satisfies : Version → String → Bool
  localBefore : String → Option LocalPkg
  localAfter : String → Option LocalPkg
  registry : String → Option (List (Version × DependencyMeta))
  proc : ProcOutcome
  agent : Option Agent
  endpointConfig : Option String
  endpoint : String
  resolveInCache : String → Option Bool
  manifest : List (String × String)

/-- The per-override body of `_getLocalDeps` (lines 252 through 260):
resolve directly from the local installed manifest, fields left unset when
`loadManifest` throws. -/
def localDep (localFn : String → Option LocalPkg) (p : String × String) : Dependency :=
  match localFn p.1 with
  | some m => { request := p.2, resolved := some m.version, workspace := some m.workspace }
  | none => { request := p.2 }

/-- `Installer._getLocalDeps` (lines 251 through 261): capture each
override's current local resolution, skipping remote lookups. -/
def _getLocalDeps (localFn : String → Option LocalPkg) (override : List (String × String)) :
    List (String × Dependency) :=
  override.map fun p => (p.1, localDep localFn p)

/-- One override's test in the decision loop of `install` (line 269):
`workspace || deps[name] && resolved && satisfies(resolved, deps[name],
{ includePrerelease: true })`. -/
def overrideOk (sat : Version → String → Bool) (dep : Dependency) (range : String) : Bool :=
  truthy dep.workspace ||
    (!(range == "") &&
      match dep.resolved with
      | some v => sat v range
      | none => false)

/-- The decision loop of `install` (lines 267 through 272): returns the
final `forced` flag together with the names actually examined — the loop
sets `forced = true` and `break`s at the first unsatisfied override. -/
def decideLoop (sat : Version → String → Bool) (localDeps : List (String × Dependency)) :
    List (String × String) → Bool → Bool × List String
  | [], forced => (forced, [])
  | (name, range) :: rest, forced =>
    let dep := (lookupKey name localDeps).getD { request := "" }
    if overrideOk sat dep range then
      let r := decideLoop sat localDeps rest forced
      (r.1, name :: r.2)
    else
      (true, [name])

/-- Key order used by `Installer.override` to sort the dependency map
(`a[0].localeCompare(b[0])`, modelled as code-unit order). -/
def keyLe (a b : String × String) : Prop := jsStrLeP a.1 b.1

instance : DecidableRel keyLe := fun a b => by
  unfold keyLe; infer_instance

/-- `Installer.override` (lines 230 through 241): apply each override to the
dependency map (empty string deletes), sort keys, and produce the map that
is then written to `package.json`.  The write happens unconditionally. -/
def override (manifest : List (String × String)) (deps : List (String × String)) :
    List (String × String) :=
  let updated := deps.foldl
    (fun m p => if p.2 == "" then removeEntry m p.1 else setEntry m p.1 p.2)
    manifest
  List.insertionSort keyLe updated

/-- The argument list `_install` passes to `exec` (lines 243 through 249):
a registry override exactly when an endpoint is configured. -/
def _installArgs (env : Env) : List String :=
  match env.endpointConfig with
  | some _ => ["--registry", env.endpoint]
  | none => []

/-- The spawn set up by `exec` (lines 188 through 196): the executable
defaults to npm, JSON-line mode is selected exactly when the agent is yarn
and its version string is `>= '2'` in JS string order, an `install` verb is
unshifted for every non-yarn tool, and `--json` is appended in JSON mode. -/
def execSpawn (agent : Option Agent) (args0 : List String) : SpawnCall :=
  let name := match agent with
    | some a => a.name
    | none => "npm"
  let useJson := match agent with
    | some a => a.name == "yarn" && jsStrGe a.version "2"
    | none => false
  let args1 := if name == "yarn" then args0 else "install" :: args0
  let args2 := if useJson then args1 ++ ["--json"] else args1
  { name := name, args := args2, useJson := useJson }

/-- The non-workspace tail of `_getDeps`'s per-package task (lines 160
through 165): the `valid(request)` check — note: version validity, the
`semver.valid` primitive — and the `latest` lookup from the first key of
the fetched version mapping. -/
def finishDep (d : Dependency) (name : String)
    (registry : String → Option (List (Version × DependencyMeta))) : Dependency :=
  let d1 := if semverValid d.request then d else { d with invalid := some true }
  match registry name with
  | some versions => { d1 with latest := versions.head?.map Prod.fst }
  | none => d1

/-- The per-package task body of `_getDeps` (lines 148 through 166): the
request is stripped of a leading `^`/`~`; a successful local load records
`resolved` and `workspace`, and a workspace package stops there (no
validity check, no remote lookup). -/
def depRecord (localFn : String → Option LocalPkg)
    (registry : String → Option (List (Version × DependencyMeta)))
    (p : String × String) : Dependency :=
  let d0 : Dependency := { request := stripCaretTilde p.2 }
  match localFn p.1 with
  | some m =>
    let d1 := { d0 with resolved := some m.version, workspace := some m.workspace }
    if m.workspace then d1 else finishDep d1 p.1 registry
  | none => finishDep d0 p.1 registry

/-- `Installer._getDeps` (lines 147 through 168): one dependency record per
manifest entry, in manifest order. -/
def _getDeps (manifest : List (String × String)) (localFn : String → Option LocalPkg)
    (registry : String → Option (List (Version × DependencyMeta))) :
    List (String × Dependency) :=
  manifest.map fun p => (p.1, depRecord localFn registry p)

/-- The installer's cache state: the fetch-task table, the full and delta
version caches, and the memoized dependency snapshot (the resolved value of
`depTask`). -/
structure CacheState where
  pkgTasks : List (String × Nat)
  fullCache : List (String × List (Version × DependencyMeta))
  tempCache : List (String × List (Version × DependencyMeta))
  depTask : List (String × Dependency)
deriving DecidableEq, Repr

/-- `Installer.refresh` (lines 179 through 186): clear the fetch-task table
and both version caches, recompute the dependency snapshot from the (just
overridden) manifest. -/
def refresh (manifest : List (String × String)) (localFn : String → Option LocalPkg)
    (registry : String → Option (List (Version × DependencyMeta)))
    (_st : CacheState) : CacheState :=
  { pkgTasks := [], fullCache := [], tempCache := [],
    depTask := _getDeps manifest localFn registry }

/-- One iteration of the reload loop in `install` (lines 281 through 293):
the package reaches `fullReload()` when it is not workspace-linked, is still
present in the new snapshot with a different resolved version, and the
`require.resolve`-in-`require.cache` check passes or itself throws (the
catch only logs the error and falls through to the reload call). -/
def reloadHit (resolveInCache : String → Option Bool) (newDeps : List (String × Dependency))
    (p : String × Dependency) : Bool :=
  if truthy p.2.workspace then false
  else
    match lookupKey p.1 newDeps with
    | none => false
    | some nd =>
      if nd.resolved = p.2.resolved then false
      else
        match resolveInCache p.1 with
        | some b => b
        | none => true

/-- Observable effects and result of one `install` call: the manifest maps
written, the processes spawned, whether `refresh` ran, the cache state
afterwards, how many `fullReload()` signals went to the loader, and the
returned code. -/
structure Trace where
  manifestWrites : List (List (String × String))
  spawns : List SpawnCall
  refreshCalled : Bool
  cacheAfter : CacheState
  fullReloads : Nat
  result : Int
deriving DecidableEq, Repr

/-- `Installer.install` (lines 263 through 297) as a function from the
call's environment, incoming cache state, override set and explicit
`forced` flag to its effect trace.  Mirrors the source order: capture local
deps, write the overridden manifest, run the decision loop, spawn when
forced (returning the exit code early when it is nonzero, without any
refresh), then refresh, rebuild the snapshot, and run the reload loop. -/
def install (env : Env) (st : CacheState) (deps : List (String × String))
    (forced0 : Bool) : Trace :=
  let localDeps := _getLocalDeps env.localBefore deps
  let manifest1 := override env.manifest deps
  let forced := (decideLoop env.satisfies localDeps deps forced0).1
  let finish : List SpawnCall → Trace := fun spawns =>
    let stNew := refresh manifest1 env.localAfter env.registry st
    { manifestWrites := [manifest1], spawns := spawns, refreshCalled := true,
      cacheAfter := stNew,
      fullReloads := localDeps.countP (reloadHit env.resolveInCache stNew.depTask),
      result := 0 }
  if forced then
    let s := execSpawn env.agent (_installArgs env)
    let code := execResult env.proc
    if code = 0 then finish [s]
    else
      { manifestWrites := [manifest1], spawns := [s], refreshCalled := false,
        cacheAfter := st, fullReloads := 0, result := code }
  else finish []

/-! ### The fetch-task table (`getPackage`)

The dedup argument for C7: tasks are identified by serial numbers (a stored
task may be pending or already resolved — `getPackage` does not
distinguish), and the log records each network fetch actually issued
(`_getPackage` invocation). -/

/-- State of the fetch-task table. -/
structure FetchState where
  pkgTasks : List (String × Nat)
  nextId : Nat
  fetchLog : List String
deriving DecidableEq, Repr

/-- The fetch-task table right after an invalidation (`refresh` assigns
`this.pkgTasks = {}`). -/
def freshFetchState : FetchState :=
  { pkgTasks := [], nextId := 0, fetchLog := [] }

/-- `Installer.getPackage` (lines 143 through 145):
`this.pkgTasks[name] ||= this._getPackage(name)` — a stored task (a promise
is always truthy) is returned as is; otherwise the network fetch is issued
and the new task stored. -/
def getPackage (st : FetchState) (name : String) : Nat × FetchState :=
  match lookupKey name st.pkgTasks with
  | some t => (t, st)
  | none =>
    (st.nextId,
      { pkgTasks := st.pkgTasks ++ [(name, st.nextId)],
        nextId := st.nextId + 1,
        fetchLog := st.fetchLog ++ [name] })

/-- Run a sequence of `getPackage` calls, collecting each call's returned
task next to the requested name. -/
def runGetPackages (st : FetchState) : List String → List (String × Nat) × FetchState
  | [] => ([], st)
  | n :: rest =>
    let r := getPackage st n
    let rr := runGetPackages r.2 rest
    ((n, r.1) :: rr.1, rr.2)

/-! ### Line buffering in `exec` -/

/-- Per-stream line buffering in `exec` (lines 198 through 226): the state
is the pending partial line and the complete lines processed so far; each
`data` event prepends the buffer, splits on `'\n'`, keeps the final
(possibly empty) fragment as the new buffer and processes every complete
line. -/
def feedChunk (st : List Char × List (List Char)) (chunk : List Char) :
    List Char × List (List Char) :=
  let lines := splitOnC '\n' (st.1 ++ chunk)
  (lines.getLastD [], st.2 ++ lines.dropLast)

/-- A whole stream: all delivery events in order, from the empty buffer. -/
def runStream (chunks : List (List Char)) : List Char × List (List Char) :=
  chunks.foldl feedChunk ([], [])

end Installer

/-! ### Concrete scenarios used by counterexamples and witnesses -/

/-- Version `1.0.0`. -/
def v100 : Version := ⟨1, 0, 0, []⟩

/-- Version `2.0.0`. -/
def v200 : Version := ⟨2, 0, 0, []⟩

/-- The empty cache state. -/
def cache0 : Installer.CacheState :=
  { pkgTasks := [], fullCache := [], tempCache := [], depTask := [] }

/-- A minimal environment: nothing installed, empty registry, process exits
cleanly, no package manager detected. -/
def envBase : Installer.Env :=
  { satisfies := fun _ _ => false
    localBefore := fun _ => none
    localAfter := fun _ => none
    registry := fun _ => none
    proc := .exit 0
    agent := none
    endpointConfig := none
    endpoint := ""
    resolveInCache := fun _ => some false
    manifest := [] }

/-- Environment whose spawned process exits with code 2. -/
def envFail : Installer.Env := { envBase with proc := .exit 2 }

/-- Environment where every package is installed at `1.0.0` before install
and at `2.0.0` after, is not workspace-linked, and is present in the module
cache; the manifest declares `a` and `b`. -/
def envUpgrade : Installer.Env :=
  { envBase with
    localBefore := fun _ => some ⟨v100, false⟩
    localAfter := fun _ => some ⟨v200, false⟩
    resolveInCache := fun _ => some true
    manifest := [("a", "^1.0.0"), ("b", "^1.0.0")] }

/-- Environment where every package resolves as a workspace link. -/
def envWorkspace : Installer.Env :=
  { envBase with localBefore := fun _ => some ⟨v100, true⟩ }

/-- Environment running under yarn 3. -/
def envYarn : Installer.Env := { envBase with agent := some ⟨"yarn", "3.0.0"⟩ }

/-- A nonempty cache state, to observe whether invalidation happened. -/
def cacheX : Installer.CacheState := { cache0 with pkgTasks := [("x", 0)] }

namespace Installer

/-! ### Reduction lemmas for `install` -/

theorem decideLoop_fst_forced (sat : Version → String → Bool)
    (L : List (String × Dependency)) :
    ∀ l : List (String × String), (decideLoop sat L l true).1 = true
  | [] => rfl
  | (name, range) :: rest => by
    simp only [decideLoop]
    split
    · simpa using decideLoop_fst_forced sat L rest
    · rfl

theorem install_eq_of_forced (env : Env) (st : CacheState) (deps : List (String × String))
    (f0 : Bool)
    (h : (decideLoop env.satisfies (_getLocalDeps env.localBefore deps) deps f0).1 = true) :
    install env st deps f0 =
      if execResult env.proc = 0 then
        { manifestWrites := [override env.manifest deps]
          spawns := [execSpawn env.agent (_installArgs env)]
          refreshCalled := true
          cacheAfter := refresh (override env.manifest deps) env.localAfter env.registry st
          fullReloads := (_getLocalDeps env.localBefore deps).countP
            (reloadHit env.resolveInCache
              (refresh (override env.manifest deps) env.localAfter env.registry st).depTask)
          result := 0 }
      else
        { manifestWrites := [override env.manifest deps]
          spawns := [execSpawn env.agent (_installArgs env)]
          refreshCalled := false
          cacheAfter := st
          fullReloads := 0
          result := execResult env.proc } := by
  simp only [install, h, if_true]

theorem install_eq_of_skip (env : Env) (st : CacheState) (deps : List (String × String))
    (f0 : Bool)
    (h : (decideLoop env.satisfies (_getLocalDeps env.localBefore deps) deps f0).1 = false) :
    install env st deps f0 =
      { manifestWrites := [override env.manifest deps]
        spawns := []
        refreshCalled := true
        cacheAfter := refresh (override env.manifest deps) env.localAfter env.registry st
        fullReloads := (_getLocalDeps env.localBefore deps).countP
          (reloadHit env.resolveInCache
            (refresh (override env.manifest deps) env.localAfter env.registry st).depTask)
        result := 0 } := by
  simp only [install, h, Bool.false_eq_true, if_false]

theorem install_spawns_eq (env : Env) (st : CacheState) (deps : List (String × String))
    (f0 : Bool) :
    (install env st deps f0).spawns =
      if (decideLoop env.satisfies (_getLocalDeps env.localBefore deps) deps f0).1 then
        [execSpawn env.agent (_installArgs env)]
      else [] := by
  cases hf : (decideLoop env.satisfies (_getLocalDeps env.localBefore deps) deps f0).1 with
  | false =>
    rw [install_eq_of_skip env st deps f0 hf]
    simp
  | true =>
    rw [install_eq_of_forced env st deps f0 hf]
    by_cases hc : execResult env.proc = 0
    · rw [if_pos hc]; simp
    · rw [if_neg hc]; simp

/-! ### C1 -/

/-- C1, counterexample: `install({})` (empty overrides, not forced) spawns
nothing and returns 0, but it DOES perform a manifest write — `override`
rewrites `package.json` unconditionally — refuting "performs no manifest
write". -/
theorem install_empty_writes_manifest :
    (install envBase cache0 [] false).manifestWrites.length = 1 ∧
    (install envBase cache0 [] false).spawns = [] ∧
    (install envBase cache0 [] false).result = 0 := by
  refine ⟨rfl, rfl, rfl⟩

/-- C1, amended: for the empty override set and forced not set, `install`
performs no external process execution and returns 0, but writes the
manifest exactly once (the unchanged dependency map, re-sorted by key); it
also sends no reload signal. -/
theorem install_empty_overrides (env : Env) (st : CacheState) :
    (install env st [] false).spawns = [] ∧
    (install env st [] false).result = 0 ∧
    (install env st [] false).manifestWrites = [override env.manifest []] ∧
    (install env st [] false).fullReloads = 0 := by
  refine ⟨rfl, rfl, rfl, rfl⟩

/-! ### C8 -/

/-- C8: `exec` is total — it resolves with the process's exit code, or with
the sentinel `-1` when the process failed to start — and whenever `install`
spawns the process (explicitly forced or decision-forced), it returns
exactly that value as its overall result (the nonzero case via the early
return, the zero case via the final `return 0`). -/
theorem exec_result_propagated (env : Env) (st : CacheState) (deps : List (String × String)) :
    (install env st deps true).result = execResult env.proc ∧
    (∀ f0 : Bool, (install env st deps f0).spawns ≠ [] →
      (install env st deps f0).result = execResult env.proc) ∧
    (∀ c : Int, execResult (.exit c) = c) ∧
    execResult .startError = -1 := by
  have hprop : ∀ f0 : Bool, (install env st deps f0).spawns ≠ [] →
      (install env st deps f0).result = execResult env.proc := by
    intro f0 hsp
    cases hf : (decideLoop env.satisfies (_getLocalDeps env.localBefore deps) deps f0).1 with
    | false =>
      rw [install_eq_of_skip env st deps f0 hf] at hsp
      exact absurd rfl hsp
    | true =>
      rw [install_eq_of_forced env st deps f0 hf]
      by_cases hc : execResult env.proc = 0
      · rw [if_pos hc, hc]
      · rw [if_neg hc]
  refine ⟨?_, hprop, fun _ => rfl, rfl⟩
  have hsp : (install env st deps true).spawns ≠ [] := by
    rw [install_spawns_eq env st deps true, decideLoop_fst_forced _ _ deps]
    simp
  exact hprop true hsp

/-! ### C3 -/

/-- C3, counterexample: an install attempt whose external process exits with
code 2 returns that code early — `refresh` never runs, the fetch tasks and
caches are left exactly as they were (here: still holding an entry), and the
snapshot is not recomputed.  This refutes "for every install attempt …
cleared … recomputed". -/
theorem install_failed_exec_keeps_caches :
    (install envFail cacheX [] true).spawns ≠ [] ∧
    (install envFail cacheX [] true).result = 2 ∧
    (install envFail cacheX [] true).refreshCalled = false ∧
    (install envFail cacheX [] true).cacheAfter = cacheX := by
  refine ⟨by decide, by decide, by decide, by decide⟩

/-- C3, amended: the invalidation (fetch tasks and both version caches
cleared, snapshot recomputed from the overridden manifest) happens exactly
on the install attempts that return 0 — i.e. on a skip or on a successful
external process; an attempt whose process fails returns its nonzero code
with the cache state untouched.  A skipped install always returns 0, so a
skip always invalidates. -/
theorem install_invalidation_iff (env : Env) (st : CacheState) (deps : List (String × String))
    (f0 : Bool) :
    ((install env st deps f0).result = 0 →
      (install env st deps f0).refreshCalled = true ∧
      (install env st deps f0).cacheAfter.pkgTasks = [] ∧
      (install env st deps f0).cacheAfter.fullCache = [] ∧
      (install env st deps f0).cacheAfter.tempCache = [] ∧
      (install env st deps f0).cacheAfter.depTask =
        _getDeps (override env.manifest deps) env.localAfter env.registry) ∧
    ((install env st deps f0).result ≠ 0 →
      (install env st deps f0).refreshCalled = false ∧
      (install env st deps f0).cacheAfter = st) ∧
    ((install env st deps f0).spawns = [] → (install env st deps f0).result = 0) := by
  cases hf : (decideLoop env.satisfies (_getLocalDeps env.localBefore deps) deps f0).1 with
  | true =>
    rw [install_eq_of_forced env st deps f0 hf]
    by_cases hc : execResult env.proc = 0
    · rw [if_pos hc]
      exact ⟨fun _ => ⟨rfl, rfl, rfl, rfl, rfl⟩, fun hne => absurd rfl hne, fun _ => rfl⟩
    · rw [if_neg hc]
      exact ⟨fun h0 => absurd h0 hc, fun _ => ⟨rfl, rfl⟩, fun hsp => by simp at hsp⟩
  | false =>
    rw [install_eq_of_skip env st deps f0 hf]
    exact ⟨fun _ => ⟨rfl, rfl, rfl, rfl, rfl⟩, fun hne => absurd rfl hne, fun _ => rfl⟩

/-- C3, witness: a successful skip invalidates — the caches come out
empty. -/
theorem install_invalidation_iff_witness :
    (install envBase cache0 [] false).refreshCalled = true ∧
    (install envBase cache0 [] false).cacheAfter.pkgTasks = [] := by
  have h := install_invalidation_iff envBase cache0 [] false
  exact ⟨(h.1 (by decide)).1, (h.1 (by decide)).2.1⟩

/-! ### C5 -/

/-- C5, counterexample: with the agent `yarn` at version `10.0.0` — major
version 10, hence ≥ 2 — `exec` picks plain-text mode and passes no
structured-output flag, because `this.agent.version >= '2'` is a
lexicographic string comparison and `"10.0.0" < "2"` as strings.  This
refutes "JSON mode if and only if yarn at major version ≥ 2". -/
theorem exec_yarn_ten_plain_text :
    (execSpawn (some ⟨"yarn", "10.0.0"⟩) []).useJson = false ∧
    semverMajor "10.0.0" = some 10 ∧
    "--json" ∉ (execSpawn (some ⟨"yarn", "10.0.0"⟩) []).args := by
  refine ⟨by decide, by decide, by decide⟩

theorem execSpawn_json_mem (agent : Option Agent) (args0 : List String) :
    ("--json" ∈ (execSpawn agent args0).args ↔
      ((execSpawn agent args0).useJson = true ∨ "--json" ∈ args0)) := by
  unfold execSpawn
  cases agent with
  | none =>
    simp [show ("--json" : String) ≠ "install" from by decide]
  | some a =>
    by_cases hy : (a.name == "yarn") = true <;>
      by_cases hg : jsStrGe a.version "2" = true <;>
        simp [hy, hg, show ("--json" : String) ≠ "install" from by decide]

theorem execSpawn_head_install (agent : Option Agent) (args0 : List String)
    (h : (execSpawn agent args0).name ≠ "yarn") :
    (execSpawn agent args0).args.head? = some "install" := by
  unfold execSpawn at *
  cases agent with
  | none => simp
  | some a =>
    have hy : (a.name == "yarn") = false := by
      simpa using h
    simp [hy]

/-- C5, amended: a forced `install` spawns exactly one process, whose
JSON-line mode is selected if and only if the detected agent is `yarn` with
a version string that is `>= '2'` in JS lexicographic string order (so e.g.
a hypothetical yarn `10.0.0` gets plain-text mode although its major version
is ≥ 2); the `--json` flag is passed exactly in JSON mode, and every
non-yarn tool gets the `install` verb prepended instead. -/
theorem exec_json_mode_iff (env : Env) (st : CacheState) (deps : List (String × String)) :
    ∃ s : SpawnCall, (install env st deps true).spawns = [s] ∧
      (s.useJson = true ↔
        ∃ a, env.agent = some a ∧ a.name = "yarn" ∧ jsStrGe a.version "2" = true) ∧
      ("--json" ∈ s.args ↔ (s.useJson = true ∨ "--json" ∈ _installArgs env)) ∧
      (s.name ≠ "yarn" → s.args.head? = some "install") := by
  refine ⟨execSpawn env.agent (_installArgs env), ?_, ?_, ?_, ?_⟩
  · rw [install_eq_of_forced env st deps true (decideLoop_fst_forced _ _ deps)]
    by_cases hc : execResult env.proc = 0
    · rw [if_pos hc]
    · rw [if_neg hc]
  · cases hA : env.agent with
    | none => simp [execSpawn]
    | some a => simp [execSpawn, Bool.and_eq_true]
  · exact execSpawn_json_mem env.agent (_installArgs env)
  · exact execSpawn_head_install env.agent (_installArgs env)

/-- C5, witness: under yarn 3 the single spawned process is in JSON mode
and carries the flag. -/
theorem exec_json_mode_iff_witness :
    (install envYarn cache0 [] true).spawns.map SpawnCall.useJson = [true] := by
  obtain ⟨s, hs, hiff, hmem, _⟩ := exec_json_mode_iff envYarn cache0 []
  rw [hs]
  have hj : s.useJson = true := by
    refine hiff.mpr ⟨⟨"yarn", "3.0.0"⟩, ?_, rfl, by decide⟩
    rfl
  simp [hj]

/-! ### C4 -/

theorem finishDep_invalid (d : Dependency) (name : String)
    (registry : String → Option (List (Version × DependencyMeta))) :
    (finishDep d name registry).invalid =
      if semverValid d.request then d.invalid else some true := by
  cases hr : registry name <;> by_cases hv : semverValid d.request <;>
    simp [finishDep, hr, hv]

theorem finishDep_workspace (d : Dependency) (name : String)
    (registry : String → Option (List (Version × DependencyMeta))) :
    (finishDep d name registry).workspace = d.workspace := by
  cases hr : registry name <;> by_cases hv : semverValid d.request <;>
    simp [finishDep, hr, hv]

theorem finishDep_request (d : Dependency) (name : String)
    (registry : String → Option (List (Version × DependencyMeta))) :
    (finishDep d name registry).request = d.request := by
  cases hr : registry name <;> by_cases hv : semverValid d.request <;>
    simp [finishDep, hr, hv]

theorem depRecord_invalid_iff (localFn : String → Option LocalPkg)
    (registry : String → Option (List (Version × DependencyMeta)))
    (p : String × String) :
    ((depRecord localFn registry p).invalid = some true ↔
      (semverValid (depRecord localFn registry p).request = false ∧
        (depRecord localFn registry p).workspace ≠ some true)) ∧
    ((depRecord localFn registry p).workspace = some true →
      (depRecord localFn registry p).invalid = none) := by
  unfold depRecord
  cases hl : localFn p.1 with
  | none =>
    rw [finishDep_invalid, finishDep_request, finishDep_workspace]
    by_cases hv : semverValid (stripCaretTilde p.2) <;> simp [hv]
  | some m =>
    by_cases hw : m.workspace = true
    · simp [hw]
    · have hw' : m.workspace = false := by simpa using hw
      simp only [hw', Bool.false_eq_true, if_false]
      rw [finishDep_invalid, finishDep_request, finishDep_workspace]
      by_cases hv : semverValid (stripCaretTilde p.2) <;> simp [hv]

theorem lookupKey_map_record (f : String × String → Dependency) :
    ∀ (l : List (String × String)) (k : String) (d : Dependency),
      lookupKey k (l.map fun p => (p.1, f p)) = some d → ∃ p, p.1 = k ∧ d = f p
  | [], k, d => by simp [lookupKey]
  | p :: rest, k, d => by
    intro h
    simp only [List.map_cons, lookupKey] at h
    split at h
    · rename_i heq
      injection h with h
      exact ⟨p, heq, h.symm⟩
    · exact lookupKey_map_record f rest k d h

/-- C4, counterexample: the manifest request `>=1.0.0` is a valid semver
RANGE, yet `_getDeps` marks the (non-workspace, not installed) dependency
invalid, because the code checks `valid(request)` — single-version validity
— not range validity.  This refutes "invalid exactly when the request fails
semver-range validation". -/
theorem getDeps_range_request_marked_invalid :
    lookupKey "foo" (_getDeps [("foo", ">=1.0.0")] (fun _ => none) (fun _ => none)) =
      some { request := ">=1.0.0", invalid := some true } ∧
    semverValidRange ">=1.0.0" = true ∧
    semverValid ">=1.0.0" = false := by
  refine ⟨by decide, by decide, by decide⟩

/-- C4, amended: in every snapshot built by `_getDeps`, a record's
`invalid` flag is set exactly when its normalized request fails semver
VERSION validation (`semver.valid`: a single concrete version, not a range)
and the package is not a workspace link; a workspace-linked dependency is
never marked invalid regardless of its request string. -/
theorem getDeps_invalid_iff (manifest : List (String × String))
    (localFn : String → Option LocalPkg)
    (registry : String → Option (List (Version × DependencyMeta)))
    (name : String) (d : Dependency)
    (h : lookupKey name (_getDeps manifest localFn registry) = some d) :
    (d.invalid = some true ↔
      (semverValid d.request = false ∧ d.workspace ≠ some true)) ∧
    (d.workspace = some true → d.invalid = none) := by
  unfold _getDeps at h
  obtain ⟨p, _, hd⟩ := lookupKey_map_record (depRecord localFn registry) manifest name d h
  subst hd
  exact depRecord_invalid_iff localFn registry p

/-- C4, witness: a workspace-linked dependency record from `_getDeps` has
no `invalid` flag. -/
theorem getDeps_invalid_iff_witness :
    ({ request := "1.0.0", resolved := some ⟨1, 0, 0, []⟩,
       workspace := some true } : Dependency).invalid = none := by
  have h := getDeps_invalid_iff [("foo", "^1.0.0")]
    (fun _ => some ⟨⟨1, 0, 0, []⟩, true⟩) (fun _ => none) "foo"
    { request := "1.0.0", resolved := some ⟨1, 0, 0, []⟩, workspace := some true }
    (by decide)
  exact h.2 rfl

/-! ### C2 -/

/-- The condition the decision loop evaluates for one override, with the
`localDeps[name] || {}` lookup made explicit. -/
def examineOk (sat : Version → String → Bool) (L : List (String × Dependency))
    (p : String × String) : Bool :=
  overrideOk sat ((lookupKey p.1 L).getD { request := "" }) p.2

theorem decideLoop_fst (sat : Version → String → Bool) (L : List (String × Dependency)) :
    ∀ (l : List (String × String)) (f0 : Bool),
      (decideLoop sat L l f0).1 = (f0 || l.any fun p => !(examineOk sat L p))
  | [], f0 => by simp [decideLoop]
  | (name, range) :: rest, f0 => by
    by_cases h : examineOk sat L (name, range) = true
    · have h' : overrideOk sat ((lookupKey name L).getD { request := "" }) range = true := h
      simp only [decideLoop, h', if_true, List.any_cons, h, Bool.not_true, Bool.false_or]
      exact decideLoop_fst sat L rest f0
    · have h' : overrideOk sat ((lookupKey name L).getD { request := "" }) range = false :=
        Bool.eq_false_iff.mpr h
      have h2 : examineOk sat L (name, range) = false := h'
      simp [decideLoop, h', h2]

theorem decideLoop_snd (sat : Version → String → Bool) (L : List (String × Dependency)) :
    ∀ (l : List (String × String)) (f0 : Bool),
      (decideLoop sat L l f0).2 =
        ((l.takeWhile (examineOk sat L)).map Prod.fst) ++
          (match l.dropWhile (examineOk sat L) with
           | [] => []
           | q :: _ => [q.1])
  | [], f0 => by simp [decideLoop]
  | (name, range) :: rest, f0 => by
    by_cases h : examineOk sat L (name, range) = true
    · have h' : overrideOk sat ((lookupKey name L).getD { request := "" }) range = true := h
      simp only [decideLoop, h', if_true, List.takeWhile_cons, List.dropWhile_cons, h,
        List.map_cons, List.cons_append]
      rw [decideLoop_snd sat L rest f0]
    · have h' : overrideOk sat ((lookupKey name L).getD { request := "" }) range = false :=
        Bool.eq_false_iff.mpr h
      have h2 : examineOk sat L (name, range) = false := h'
      simp [decideLoop, h', h2, List.takeWhile_cons, List.dropWhile_cons]

theorem lookupKey_getLocalDeps (localFn : String → Option LocalPkg) :
    ∀ (deps : List (String × String)), (deps.map Prod.fst).Nodup →
      ∀ p ∈ deps, lookupKey p.1 (_getLocalDeps localFn deps) = some (localDep localFn p)
  | [], _, p, hp => by cases hp
  | q :: rest, hnd, p, hp => by
    simp only [_getLocalDeps, List.map_cons, lookupKey]
    rcases List.mem_cons.mp hp with rfl | hmem
    · rw [if_pos rfl]
    · have hne : q.1 ≠ p.1 := by
        simp only [List.map_cons, List.nodup_cons] at hnd
        intro he
        exact hnd.1 (he ▸ List.mem_map.mpr ⟨p, hmem, rfl⟩)
      rw [if_neg hne]
      have hrest : (rest.map Prod.fst).Nodup :=
        (List.nodup_cons.mp (by simpa using hnd)).2
      have := lookupKey_getLocalDeps localFn rest hrest p hmem
      simpa [_getLocalDeps] using this

theorem examineOk_getLocalDeps (sat : Version → String → Bool)
    (localFn : String → Option LocalPkg) (deps : List (String × String))
    (hnd : (deps.map Prod.fst).Nodup) (p : String × String) (hp : p ∈ deps) :
    examineOk sat (_getLocalDeps localFn deps) p =
      overrideOk sat (localDep localFn p) p.2 := by
  unfold examineOk
  rw [lookupKey_getLocalDeps localFn deps hnd p hp]
  rfl

theorem any_congr_mem {f g : α → Bool} :
    ∀ l : List α, (∀ x ∈ l, f x = g x) → l.any f = l.any g
  | [], _ => rfl
  | x :: xs, h => by
    simp only [List.any_cons]
    rw [h x (by simp), any_congr_mem xs (fun y hy => h y (by simp [hy]))]

theorem takeWhile_congr_mem {f g : α → Bool} :
    ∀ l : List α, (∀ x ∈ l, f x = g x) →
      l.takeWhile f = l.takeWhile g ∧ l.dropWhile f = l.dropWhile g
  | [], _ => ⟨rfl, rfl⟩
  | x :: xs, h => by
    have hx := h x (by simp)
    have ih := takeWhile_congr_mem xs (fun y hy => h y (by simp [hy]))
    constructor
    · simp only [List.takeWhile_cons, hx]
      rw [ih.1]
    · simp only [List.dropWhile_cons, hx]
      rw [ih.2]

/-- C2: a forced install happens exactly when the explicit flag is set or
some override is not satisfied (`overrideOk`: workspace-linked, or a
non-empty range that the currently resolved version satisfies with
pre-releases admitted); the loop examines overrides only up to and
including the first unsatisfied one (short-circuit); and an override set of
workspace-linked packages alone never forces an install. -/
theorem install_spawns_iff (env : Env) (st : CacheState) (deps : List (String × String))
    (forced0 : Bool) (hnd : (deps.map Prod.fst).Nodup) :
    ((install env st deps forced0).spawns ≠ [] ↔
      (forced0 = true ∨
        ∃ p ∈ deps, overrideOk env.satisfies (localDep env.localBefore p) p.2 = false)) ∧
    ((decideLoop env.satisfies (_getLocalDeps env.localBefore deps) deps forced0).2 =
      ((deps.takeWhile fun p =>
          overrideOk env.satisfies (localDep env.localBefore p) p.2).map Prod.fst) ++
        (match deps.dropWhile
            (fun p => overrideOk env.satisfies (localDep env.localBefore p) p.2) with
         | [] => []
         | q :: _ => [q.1])) ∧
    ((∀ p ∈ deps, (localDep env.localBefore p).workspace = some true) → forced0 = false →
      (install env st deps forced0).spawns = []) := by
  have hcong : ∀ p ∈ deps,
      examineOk env.satisfies (_getLocalDeps env.localBefore deps) p =
        overrideOk env.satisfies (localDep env.localBefore p) p.2 :=
    fun p hp => examineOk_getLocalDeps env.satisfies env.localBefore deps hnd p hp
  have hfst : (decideLoop env.satisfies (_getLocalDeps env.localBefore deps) deps forced0).1 =
      (forced0 || deps.any fun p =>
        !(overrideOk env.satisfies (localDep env.localBefore p) p.2)) := by
    rw [decideLoop_fst]
    congr 1
    exact any_congr_mem deps (fun p hp => by rw [hcong p hp])
  refine ⟨?_, ?_, ?_⟩
  · rw [install_spawns_eq env st deps forced0, hfst]
    by_cases hb : (forced0 || deps.any fun p =>
        !(overrideOk env.satisfies (localDep env.localBefore p) p.2)) = true
    · rw [hb]
      simp only [if_true]
      constructor
      · intro _
        rcases Bool.or_eq_true_iff.mp hb with hb1 | hb2
        · exact Or.inl hb1
        · right
          obtain ⟨p, hp, hq⟩ := List.any_eq_true.mp hb2
          exact ⟨p, hp, by simpa using hq⟩
      · intro _
        simp
    · have hb' := Bool.eq_false_iff.mpr hb
      rw [hb']
      simp only [Bool.false_eq_true, if_false]
      constructor
      · intro hne; exact absurd rfl hne
      · intro hor
        exfalso
        rcases hor with h1 | ⟨p, hp, hq⟩
        · rw [h1] at hb'; simp at hb'
        · have : deps.any (fun p =>
              !(overrideOk env.satisfies (localDep env.localBefore p) p.2)) = true :=
            List.any_eq_true.mpr ⟨p, hp, by rw [hq]; rfl⟩
          rw [this] at hb'
          simp at hb'
  · rw [decideLoop_snd]
    have hc := takeWhile_congr_mem deps hcong
    rw [hc.1, hc.2]
  · intro hws hf0
    subst hf0
    rw [install_spawns_eq env st deps false, hfst]
    have hany : (deps.any fun p =>
        !(overrideOk env.satisfies (localDep env.localBefore p) p.2)) = false := by
      rw [List.any_eq_false]
      intro p hp
      have hw := hws p hp
      simp [overrideOk, truthy, hw]
    rw [hany]
    simp

/-- C2, witness: a single workspace-linked override with the forced flag
unset spawns nothing. -/
theorem install_spawns_iff_witness :
    (install envWorkspace cache0 [("a", "1.0.0")] false).spawns = [] := by
  have h := install_spawns_iff envWorkspace cache0 [("a", "1.0.0")] false (by decide)
  exact h.2.2 (by decide) rfl

/-! ### C6 -/

/-- C6, counterexample: two overridden packages that both changed resolved
version and are both in the module cache produce TWO `fullReload()` calls —
the signal is sent inside the loop, once per qualifying package — refuting
"exactly one full-reload signal is sent to the loader". -/
theorem install_two_reloads :
    (install envUpgrade cache0 [("a", "^2.0.0"), ("b", "^2.0.0")] true).fullReloads = 2 ∧
    (install envUpgrade cache0 [("a", "^2.0.0"), ("b", "^2.0.0")] true).result = 0 := by
  refine ⟨by decide, by decide⟩

/-- C6, amended: after an install that completes reconciliation (returns
0), the loader receives one `fullReload()` signal per overridden package
that qualifies: not workspace-linked, still present in the new snapshot
with a resolved version different from the one captured before the
manifest change, and either present in the module cache or with a module
resolution check that itself throws (the catch falls through to the reload
call).  On an early-exit failure no signal is sent. -/
theorem install_reload_count (env : Env) (st : CacheState) (deps : List (String × String))
    (f0 : Bool) (h : (install env st deps f0).result = 0) :
    (install env st deps f0).fullReloads =
      deps.countP (fun p => reloadHit env.resolveInCache
        (_getDeps (override env.manifest deps) env.localAfter env.registry)
        (p.1, localDep env.localBefore p)) := by
  cases hf : (decideLoop env.satisfies (_getLocalDeps env.localBefore deps) deps f0).1 with
  | false =>
    rw [install_eq_of_skip env st deps f0 hf]
    simp only [refresh, _getLocalDeps]
    rw [List.countP_map]
    rfl
  | true =>
    by_cases hc : execResult env.proc = 0
    · rw [install_eq_of_forced env st deps f0 hf, if_pos hc]
      simp only [refresh, _getLocalDeps]
      rw [List.countP_map]
      rfl
    · rw [install_eq_of_forced env st deps f0 hf, if_neg hc] at h
      exact absurd h hc

/-- C6, witness: the per-package count matches on the two-package upgrade
scenario. -/
theorem install_reload_count_witness :
    (install envUpgrade cache0 [("a", "^2.0.0"), ("b", "^2.0.0")] true).fullReloads =
      ([("a", "^2.0.0"), ("b", "^2.0.0")]).countP (fun p =>
        reloadHit envUpgrade.resolveInCache
          (_getDeps (override envUpgrade.manifest [("a", "^2.0.0"), ("b", "^2.0.0")])
            envUpgrade.localAfter envUpgrade.registry)
          (p.1, localDep envUpgrade.localBefore p)) :=
  install_reload_count envUpgrade cache0 [("a", "^2.0.0"), ("b", "^2.0.0")] true (by decide)

/-! ### C7 -/

theorem lookupKey_append_of_some [DecidableEq κ] {k : κ} {l1 : List (κ × β)} {v : β}
    (l2 : List (κ × β)) (h : lookupKey k l1 = some v) :
    lookupKey k (l1 ++ l2) = some v := by
  induction l1 with
  | nil => cases h
  | cons p rest ih =>
    rw [lookupKey_cons] at h
    rw [List.cons_append, lookupKey_cons]
    split at h
    · rename_i heq
      rw [if_pos heq]
      exact h
    · rename_i hne
      rw [if_neg hne]
      exact ih h

theorem lookupKey_append_of_none [DecidableEq κ] {k : κ} {l1 : List (κ × β)}
    (l2 : List (κ × β)) (h : lookupKey k l1 = none) :
    lookupKey k (l1 ++ l2) = lookupKey k l2 := by
  induction l1 with
  | nil => rfl
  | cons p rest ih =>
    rw [lookupKey_cons] at h
    rw [List.cons_append, lookupKey_cons]
    split at h
    · cases h
    · rename_i hne
      rw [if_neg hne]
      exact ih h

/-- The dedup invariant: a name has been fetched exactly once if a task for
it is stored, and never otherwise. -/
def FetchInv (st : FetchState) : Prop :=
  ∀ n : String, st.fetchLog.count n = if (lookupKey n st.pkgTasks).isSome then 1 else 0

theorem getPackage_lookup_mono {st : FetchState} {m : String} {t : Nat} (n : String)
    (h : lookupKey m st.pkgTasks = some t) :
    lookupKey m (getPackage st n).2.pkgTasks = some t := by
  unfold getPackage
  cases hl : lookupKey n st.pkgTasks with
  | some t0 => exact h
  | none => exact lookupKey_append_of_some _ h

theorem getPackage_self_lookup (st : FetchState) (n : String) :
    lookupKey n (getPackage st n).2.pkgTasks = some (getPackage st n).1 := by
  unfold getPackage
  cases hl : lookupKey n st.pkgTasks with
  | some t0 => exact hl
  | none =>
    simp only
    rw [lookupKey_append_of_none _ hl, lookupKey_cons]
    rw [if_pos rfl]

theorem getPackage_inv {st : FetchState} (n : String) (h : FetchInv st) :
    FetchInv (getPackage st n).2 := by
  unfold getPackage
  cases hl : lookupKey n st.pkgTasks with
  | some t0 => exact h
  | none =>
    intro m
    simp only
    by_cases hm : m = n
    · subst hm
      rw [List.count_append, lookupKey_append_of_none _ hl, lookupKey_cons, if_pos rfl]
      have hz := h m
      rw [hl] at hz
      simp only [Option.isSome_none, Bool.false_eq_true, if_false] at hz
      simp [hz, List.count_singleton]
    · have hcnt : List.count m [n] = 0 := by
        rw [List.count_eq_zero]
        simp [hm]
      rw [List.count_append, hcnt]
      cases hlm : lookupKey m st.pkgTasks with
      | some t =>
        rw [lookupKey_append_of_some _ hlm]
        have hz := h m
        rw [hlm] at hz
        simpa using hz
      | none =>
        have hm2 : lookupKey m [(n, st.nextId)] = none := by
          rw [lookupKey_cons, if_neg (Ne.symm hm)]
          rfl
        rw [lookupKey_append_of_none _ hlm, hm2]
        have hz := h m
        rw [hlm] at hz
        simpa using hz

theorem runGetPackages_lookup_mono {st : FetchState} {m : String} {t : Nat} :
    ∀ names : List String, lookupKey m st.pkgTasks = some t →
      lookupKey m (runGetPackages st names).2.pkgTasks = some t := by
  intro names
  induction names generalizing st with
  | nil => intro h; exact h
  | cons n rest ih =>
    intro h
    unfold runGetPackages
    exact ih (getPackage_lookup_mono n h)

theorem runGetPackages_calls_lookup {st : FetchState} :
    ∀ (names : List String) (p : String × Nat), p ∈ (runGetPackages st names).1 →
      lookupKey p.1 (runGetPackages st names).2.pkgTasks = some p.2 := by
  intro names
  induction names generalizing st with
  | nil => intro p hp; cases hp
  | cons n rest ih =>
    intro p hp
    unfold runGetPackages at hp ⊢
    rcases List.mem_cons.mp hp with rfl | hmem
    · exact runGetPackages_lookup_mono rest (getPackage_self_lookup st n)
    · exact ih p hmem

theorem runGetPackages_inv {st : FetchState} :
    ∀ names : List String, FetchInv st → FetchInv (runGetPackages st names).2 := by
  intro names
  induction names generalizing st with
  | nil => intro h; exact h
  | cons n rest ih =>
    intro h
    unfold runGetPackages
    exact ih (getPackage_inv n h)

/-- C7: between two invalidations (starting from the freshly cleared task
table), at most one network fetch is issued per package name; every two
`getPackage` calls for the same name return the same task; and a call made
while a task for the name exists returns exactly that task with the state
untouched (no fresh fetch). -/
theorem getPackage_dedup (names : List String) :
    (∀ n : String, (runGetPackages freshFetchState names).2.fetchLog.count n ≤ 1) ∧
    (∀ p ∈ (runGetPackages freshFetchState names).1,
      ∀ q ∈ (runGetPackages freshFetchState names).1, p.1 = q.1 → p.2 = q.2) ∧
    (∀ (st : FetchState) (name : String) (t : Nat),
      lookupKey name st.pkgTasks = some t → getPackage st name = (t, st)) := by
  have hinv0 : FetchInv freshFetchState := by
    intro n
    rfl
  have hinv := runGetPackages_inv names hinv0
  refine ⟨?_, ?_, ?_⟩
  · intro n
    have := hinv n
    rw [this]
    split <;> omega
  · intro p hp q hq hpq
    have h1 := runGetPackages_calls_lookup names p hp
    have h2 := runGetPackages_calls_lookup names q hq
    rw [← hpq] at h2
    exact Option.some.inj (h1.symm.trans h2)
  · intro st name t h
    unfold getPackage
    rw [h]

/-- C7, witness: requesting `a`, `b`, `a` issues at most one fetch for
`a`, and both `a` calls return the same task. -/
theorem getPackage_dedup_witness :
    (runGetPackages freshFetchState ["a", "b", "a"]).2.fetchLog.count "a" ≤ 1 :=
  (getPackage_dedup ["a", "b", "a"]).1 "a"

/-! ### C9 -/

/-- Prepend a fragment to the first line of a split. -/
def mergeHead (p : List α) : List (List α) → List (List α)
  | [] => [p]
  | l :: ls => (p ++ l) :: ls

/-- Join two splits at the boundary: the last fragment of the first fuses
with the first fragment of the second. -/
def mergeLast : List (List α) → List (List α) → List (List α)
  | [], ys => ys
  | [x], ys => mergeHead x ys
  | x :: xs, ys => x :: mergeLast xs ys

theorem splitOnC_ne_nil (sep : Char) : ∀ s : List Char, splitOnC sep s ≠ []
  | [] => by simp [splitOnC]
  | c :: cs => by
    simp only [splitOnC]
    cases h : splitOnC sep cs with
    | nil => simp
    | cons l ls =>
      by_cases hcs : c = sep <;> simp [hcs]

theorem splitOnC_shape (sep : Char) (s : List Char) :
    ∃ l ls, splitOnC sep s = l :: ls := by
  cases h : splitOnC sep s with
  | nil => exact absurd h (splitOnC_ne_nil sep s)
  | cons l ls => exact ⟨l, ls, rfl⟩

theorem splitOnC_cons_sep (sep : Char) (cs : List Char) :
    splitOnC sep (sep :: cs) = [] :: splitOnC sep cs := by
  obtain ⟨l, ls, h⟩ := splitOnC_shape sep cs
  simp [splitOnC, h]

theorem splitOnC_cons_ne (sep c : Char) (cs : List Char) (h : c ≠ sep) :
    splitOnC sep (c :: cs) = mergeHead [c] (splitOnC sep cs) := by
  obtain ⟨l, ls, hs⟩ := splitOnC_shape sep cs
  simp [splitOnC, hs, h, mergeHead]

theorem mergeHead_empty_frag (ys : List (List α)) (h : ys ≠ []) : mergeHead [] ys = ys := by
  cases ys with
  | nil => exact absurd rfl h
  | cons y ys => simp [mergeHead]

theorem mergeLast_cons_cons (x1 x2 : List α) (xs : List (List α)) (ys : List (List α)) :
    mergeLast (x1 :: x2 :: xs) ys = x1 :: mergeLast (x2 :: xs) ys := rfl

theorem splitOnC_append (sep : Char) (a b : List Char) :
    splitOnC sep (a ++ b) = mergeLast (splitOnC sep a) (splitOnC sep b) := by
  induction a with
  | nil =>
    rw [List.nil_append]
    show splitOnC sep b = mergeLast [[]] (splitOnC sep b)
    rw [show mergeLast [[]] (splitOnC sep b) = mergeHead [] (splitOnC sep b) from rfl,
        mergeHead_empty_frag _ (splitOnC_ne_nil sep b)]
  | cons c a ih =>
    by_cases hc : c = sep
    · subst hc
      rw [List.cons_append, splitOnC_cons_sep, splitOnC_cons_sep, ih]
      obtain ⟨l, ls, hs⟩ := splitOnC_shape c a
      rw [hs]
      rfl
    · rw [List.cons_append, splitOnC_cons_ne sep c (a ++ b) hc, splitOnC_cons_ne sep c a hc,
          ih]
      obtain ⟨l, ls, hs⟩ := splitOnC_shape sep a
      rw [hs]
      cases ls with
      | nil =>
        obtain ⟨m, ms, hy⟩ := splitOnC_shape sep b
        rw [hy]
        simp [mergeLast, mergeHead]
      | cons l2 ls2 =>
        simp [mergeLast, mergeHead]

theorem splitOnC_not_mem (sep : Char) : ∀ s : List Char, sep ∉ s → splitOnC sep s = [s]
  | [], _ => rfl
  | c :: cs, h => by
    have hc : c ≠ sep := by
      intro he
      exact h (by rw [he]; exact List.mem_cons_self sep cs)
    rw [splitOnC_cons_ne sep c cs hc,
        splitOnC_not_mem sep cs (fun hm => h (List.mem_cons_of_mem c hm))]
    simp [mergeHead]

theorem getLastD_cons_of_ne_nil (x : α) (d : α) : ∀ S : List α, S ≠ [] →
    (x :: S).getLastD d = S.getLastD d
  | [], h => absurd rfl h
  | y :: ys, _ => by
    simp [List.getLastD_cons]

theorem splitOnC_getLastD_not_mem (sep : Char) (s : List Char) :
    sep ∉ (splitOnC sep s).getLastD [] := by
  induction s with
  | nil => simp [splitOnC]
  | cons c cs ih =>
    by_cases hc : c = sep
    · subst hc
      rw [splitOnC_cons_sep]
      rw [getLastD_cons_of_ne_nil _ _ _ (splitOnC_ne_nil c cs)]
      exact ih
    · rw [splitOnC_cons_ne sep c cs hc]
      obtain ⟨l, ls, hs⟩ := splitOnC_shape sep cs
      rw [hs] at ih ⊢
      cases ls with
      | nil =>
        simp only [mergeHead, List.singleton_append, List.getLastD_cons,
          List.getLastD_nil] at ih ⊢
        intro hm
        rcases List.mem_cons.mp hm with rfl | hm2
        · exact hc rfl
        · exact ih hm2
      | cons l2 ls2 =>
        simp only [mergeHead]
        rw [getLastD_cons_of_ne_nil _ _ _ (by simp)]
        rw [getLastD_cons_of_ne_nil _ _ _ (by simp)] at ih
        exact ih

theorem mergeLast_eq_dropLast_append (ys : List (List α)) : ∀ S : List (List α), S ≠ [] →
    mergeLast S ys = S.dropLast ++ mergeHead (S.getLastD []) ys
  | [], h => absurd rfl h
  | [x], _ => by simp [mergeLast]
  | x :: y :: xs, _ => by
    rw [mergeLast_cons_cons, mergeLast_eq_dropLast_append ys (y :: xs) (by simp)]
    rw [getLastD_cons_of_ne_nil x [] (y :: xs) (by simp)]
    simp

theorem getLastD_append_of_ne_nil (A : List α) (d : α) : ∀ T : List α, T ≠ [] →
    (A ++ T).getLastD d = T.getLastD d := by
  induction A with
  | nil => intro T _; rw [List.nil_append]
  | cons x A ih =>
    intro T hT
    rw [List.cons_append]
    have hAT : A ++ T ≠ [] := by
      intro he
      exact hT (List.append_eq_nil.mp he).2
    rw [getLastD_cons_of_ne_nil x d (A ++ T) hAT]
    exact ih T hT

theorem dropLast_append_of_ne_nil (A : List α) : ∀ T : List α, T ≠ [] →
    (A ++ T).dropLast = A ++ T.dropLast := by
  induction A with
  | nil => intro T _; simp
  | cons x A ih =>
    intro T hT
    rw [List.cons_append]
    have hAT : A ++ T ≠ [] := by
      intro he
      exact hT (List.append_eq_nil.mp he).2
    cases hA : A ++ T with
    | nil => exact absurd hA hAT
    | cons y ys =>
      rw [List.dropLast_cons₂, ← hA, ih T hT]
      simp

theorem runStream_general : ∀ (chunks : List (List Char)) (buf : List Char)
    (em : List (List Char)), '\n' ∉ buf →
    chunks.foldl feedChunk (buf, em) =
      ((splitOnC '\n' (buf ++ chunks.flatten)).getLastD [],
        em ++ (splitOnC '\n' (buf ++ chunks.flatten)).dropLast)
  | [], buf, em, hb => by
    rw [List.foldl_nil, List.flatten_nil, List.append_nil, splitOnC_not_mem _ _ hb]
    simp
  | c :: rest, buf, em, hb => by
    rw [List.foldl_cons]
    have hfeed : feedChunk (buf, em) c =
        ((splitOnC '\n' (buf ++ c)).getLastD [],
          em ++ (splitOnC '\n' (buf ++ c)).dropLast) := rfl
    rw [hfeed,
      runStream_general rest _ _ (splitOnC_getLastD_not_mem '\n' (buf ++ c))]
    have key : splitOnC '\n' (buf ++ (c :: rest).flatten) =
        (splitOnC '\n' (buf ++ c)).dropLast ++
          splitOnC '\n' ((splitOnC '\n' (buf ++ c)).getLastD [] ++ rest.flatten) := by
      rw [List.flatten_cons, ← List.append_assoc, splitOnC_append '\n' (buf ++ c) rest.flatten,
          mergeLast_eq_dropLast_append _ _ (splitOnC_ne_nil _ _),
          splitOnC_append '\n' ((splitOnC '\n' (buf ++ c)).getLastD []) rest.flatten,
          splitOnC_not_mem '\n' _ (splitOnC_getLastD_not_mem '\n' (buf ++ c))]
      rfl
    rw [key]
    have hne := splitOnC_ne_nil '\n'
      ((splitOnC '\n' (buf ++ c)).getLastD [] ++ rest.flatten)
    rw [getLastD_append_of_ne_nil _ _ _ hne, dropLast_append_of_ne_nil _ _ hne,
        List.append_assoc]

/-- C9: for every stream output and every way of partitioning it into
delivery chunks, the per-stream line buffering of `exec` processes exactly
the complete (newline-terminated) lines of the concatenated output, each
once and in order (so a line split across delivery events is handled once,
after its fragments are joined), and the buffer left at the end is exactly
the trailing unterminated fragment. -/
theorem exec_line_buffering (chunks : List (List Char)) :
    (runStream chunks).2 = (splitOnC '\n' chunks.flatten).dropLast ∧
    (runStream chunks).1 = (splitOnC '\n' chunks.flatten).getLastD [] := by
  unfold runStream
  rw [runStream_general chunks [] [] (by simp)]
  simp

end Installer

/-! ### C10 -/

/-- Remote records for the C10 witness: `10.0.0` next to `9.0.0` (whose
string order is the reverse of their version order) and a pre-release below
its release. -/
def demoRemote : List RemotePackage :=
  [{ version := ⟨9, 0, 0, []⟩ }, { version := ⟨10, 0, 0, []⟩ },
   { version := ⟨1, 0, 0, [.inl 1]⟩ }, { version := ⟨1, 0, 0, []⟩ }]

/-- C10: for every list of remote version records with pairwise distinct
versions (a registry document keys them uniquely), the mapping built by
`getVersions` lists its keys in strictly descending `semver.compare` order
— full semantic comparison, not string order — so the first key, the one
`_getDeps` publishes as `latest`, is not below any record in the list. -/
theorem getVersions_sorted_desc (l : List RemotePackage)
    (h : (l.map RemotePackage.version).Nodup) :
    ((getVersions l).map Prod.fst).Pairwise (fun a b => cmpVersion a b = .gt) ∧
    (∀ hd ∈ ((getVersions l).map Prod.fst).head?, ∀ r ∈ l,
      cmpVersion hd r.version ≠ .lt) := by
  set l' := l.map (fun item => (item.version, pickMeta item)) with hl'
  have hperm : List.Perm (List.insertionSort vDesc l') l' :=
    List.perm_insertionSort vDesc l'
  have hmapperm : List.Perm ((List.insertionSort vDesc l').map Prod.fst)
      (l'.map Prod.fst) := hperm.map _
  have hkeys : l'.map Prod.fst = l.map RemotePackage.version := by
    rw [hl', List.map_map]
    rfl
  have hnodup : ((List.insertionSort vDesc l').map Prod.fst).Nodup := by
    rw [hmapperm.nodup_iff, hkeys]
    exact h
  have hfe : getVersions l = List.insertionSort vDesc l' := by
    unfold getVersions
    rw [← hl']
    exact fromEntries_eq_self hnodup
  have hsorted : List.Sorted vDesc (List.insertionSort vDesc l') :=
    List.sorted_insertionSort vDesc l'
  have hpairne : (List.insertionSort vDesc l').Pairwise (fun x y => x.1 ≠ y.1) :=
    List.pairwise_map.mp hnodup
  have hstrict : (List.insertionSort vDesc l').Pairwise
      (fun x y => cmpVersion x.1 y.1 = .gt) := by
    have hcomb := List.Pairwise.and hsorted hpairne
    refine hcomb.imp ?_
    intro x y hxy
    obtain ⟨hge, hne⟩ := hxy
    cases hcv : cmpVersion x.1 y.1 with
    | lt => exact absurd hcv hge
    | gt => rfl
    | eq => exact absurd ((cmpVersion_laws.eq_iff _ _).mp hcv) hne
  constructor
  · rw [hfe]
    exact List.pairwise_map.mpr hstrict
  · intro hd hhd r hr
    have hmem : r.version ∈ (getVersions l).map Prod.fst := by
      rw [hfe]
      have h1 : r.version ∈ l.map RemotePackage.version := List.mem_map.mpr ⟨r, hr, rfl⟩
      rw [← hkeys] at h1
      exact (hmapperm.mem_iff).mpr h1
    have hpair : ((getVersions l).map Prod.fst).Pairwise (fun a b => cmpVersion a b = .gt) := by
      rw [hfe]
      exact List.pairwise_map.mpr hstrict
    cases hgl : (getVersions l).map Prod.fst with
    | nil =>
      rw [hgl] at hhd
      cases hhd
    | cons hd0 tl =>
      rw [hgl] at hhd
      have hhd0 : hd = hd0 := by
        simp only [List.head?_cons, Option.mem_def, Option.some.injEq] at hhd
        exact hhd.symm
      subst hhd0
      rw [hgl] at hmem hpair
      rcases List.mem_cons.mp hmem with hv | hv
      · rw [← hv, cmpVersion_laws.refl]
        simp
      · have hgt := (List.pairwise_cons.mp hpair).1 r.version hv
        rw [hgt]
        simp

/-- C10, witness: on a concrete record list containing `10.0.0`, `9.0.0`,
`1.0.0` and `1.0.0-1`, the cache keys come out strictly descending. -/
theorem getVersions_sorted_desc_witness :
    ((getVersions demoRemote).map Prod.fst).Pairwise (fun a b => cmpVersion a b = .gt) :=
  (getVersions_sorted_desc demoRemote (by decide)).1

end Market
